import Mathlib

/-!
Verification development for the elastag configuration store
(src/elastag.py and src/elasconf.py).

The store keeps values under canonicalized configuration keys (sorted
tuples of attribute-name/value pairs) and retrieves by elastic matching:
the most specific stored key whose pair-set is a subset of the query's
pair-set wins.

Embedding choices:
 * a configuration given by the caller is a list of (name, value) string
   pairs (a Python dict, hence no duplicate names in well-formed inputs);
 * the Python dict underlying the store is an association list from
   canonical keys to stored values, with insertion order as the
   iteration order;
 * a stored value is a `Val`: an opaque atom (anything the caller stored
   directly), a Python list of values, or a Python set.  Sets can only
   ever hold hashable elements; in this program the only hashable values
   that reach a set are caller atoms, so `vset` carries a duplicate-free
   `List` of atoms (the list order is representation only: Python sets
   are unordered);
 * Python `sorted` is modelled by the stable `List.insertionSort`;
 * `dict.__getitem__` failure (KeyError) is `Except.error`, carrying the
   raw query so that the error identifies it, as the source message does.
-/

/-- An attribute-name / attribute-value pair of a configuration. -/
abbrev Pair := String × String

/-- A canonicalized configuration: pairs sorted by attribute name
(the tuple produced by `__confid`). -/
abbrev ConfigKey := List Pair

/-- A value stored in the dict: an opaque caller value, a Python list,
or a Python set (of hashable values, which here are always atoms). -/
inductive Val (α : Type) where
  | atom  : α → Val α
  | vlist : List (Val α) → Val α
  | vset  : List α → Val α

/-- The store underlying `ElasTag` (a Python dict from canonical keys to
values), with iteration in insertion order. -/
abbrev ElasTag (α : Type) := List (ConfigKey × Val α)

/-- Association-list lookup, as Python dict `d[k]` / `k in d` on the
underlying dict (keys of a dict are unique, lookup finds the entry). -/
def dlookup {κ β : Type} [DecidableEq κ] (k : κ) : List (κ × β) → Option β
  | [] => none
  | (k', v) :: t => if k' = k then some v else dlookup k t

/-- Association-list update, as Python dict `d[k] = v`: replace the
value of an existing key in place, otherwise append a new entry. -/
def dinsert {κ β : Type} [DecidableEq κ] (k : κ) (v : β) : List (κ × β) → List (κ × β)
  | [] => [(k, v)]
  | (k', v') :: t => if k' = k then (k, v) :: t else (k', v') :: dinsert k v t

/-- Lexicographic comparison of character lists by code point — the
order Python uses to compare strings. -/
def charListLt : List Char → List Char → Bool
  | [], [] => false
  | [], _ :: _ => true
  | _ :: _, [] => false
  | a :: la, b :: lb =>
    decide (a.toNat < b.toNat) || (decide (a.toNat = b.toNat) && charListLt la lb)

/-- Strict Python string order on attribute names. -/
def nameLt (a b : String) : Bool :=
  charListLt a.data b.data

/-- Non-strict Python string order, the relation `sorted` sorts by. -/
def nameLe (a b : String) : Prop :=
  nameLt b a = false

instance : DecidableRel nameLe :=
  fun a b => inferInstanceAs (Decidable (nameLt b a = false))

/-- `__confid(**kw)`: `tuple([(k, kw[k]) for k in sorted(kw.keys())])` —
sort the attribute names and pair each with its value in the mapping. -/
def confid (kw : List Pair) : ConfigKey :=
  (List.insertionSort nameLe (kw.map Prod.fst)).filterMap
    (fun k => (dlookup k kw).map (fun v => (k, v)))

/-- `set(c) <= config`: the pair-set of `a` is a subset of the pair-set
of `b`. -/
def subsetB (a b : List Pair) : Bool :=
  a.all (fun p => decide (p ∈ b))

/-- The order used by `sorted(self.keys(), key=len, reverse=True)`:
non-increasing number of pairs. -/
def lenDescOrder (a b : ConfigKey) : Prop :=
  b.length ≤ a.length

instance : DecidableRel lenDescOrder :=
  fun a b => inferInstanceAs (Decidable (b.length ≤ a.length))

instance : IsTotal ConfigKey lenDescOrder :=
  ⟨fun a b => Nat.le_total b.length a.length⟩

instance : IsTrans ConfigKey lenDescOrder :=
  ⟨fun _ _ _ h1 h2 => Nat.le_trans h2 h1⟩

/-- The stored keys sorted by decreasing length, as iterated by
`__translate_key` (Python `sorted` is stable; so is insertion sort). -/
def sortedKeys {α : Type} (el : ElasTag α) : List ConfigKey :=
  List.insertionSort lenDescOrder (el.map Prod.fst)

/-- `__translate_key(key)`: the first (hence largest) stored key, in
decreasing-length order, whose pair-set is included in the query's. -/
def translateKey {α : Type} (el : ElasTag α) (key : List Pair) : Option ConfigKey :=
  (sortedKeys el).find? (fun c => subsetB c (confid key))

/-- `ElasTag.__getitem__` / `ElasConf.__getitem__` (identical code):
translate the key and read the entry; on a miss raise KeyError
identifying the query. -/
def getItem {α : Type} (el : ElasTag α) (key : List Pair) : Except (List Pair) (Val α) :=
  match translateKey el key with
  | some k =>
    match dlookup k el with
    | some v => Except.ok v
    | none => Except.error key
  | none => Except.error key

/-- `__setitem__(key, val)`: store the caller's opaque value under the
canonical key. -/
def setItem {α : Type} (el : ElasTag α) (key : List Pair) (val : α) : ElasTag α :=
  dinsert (confid key) (Val.atom val) el

/-- `ElasTag.__contains__` returns `self.__translate_key(key)` (a tuple
or None); the `in` operator coerces it to bool by Python truthiness, so
an empty tuple counts as False. -/
def elasTagContains {α : Type} (el : ElasTag α) (key : List Pair) : Bool :=
  match translateKey el key with
  | some c => !c.isEmpty
  | none => false

/-- `ElasConf.__contains__`: explicitly `True` iff translate_key is not
None. -/
def elasConfContains {α : Type} (el : ElasTag α) (key : List Pair) : Bool :=
  (translateKey el key).isSome

/-- `ElasTag.haskey`: exact membership of the canonical key in the
underlying dict. -/
def haskey {α : Type} (el : ElasTag α) (key : List Pair) : Bool :=
  (dlookup (confid key) el).isSome

/-- `ElasConf.haskey`: `return key in self` — delegates to the elastic
containment check (marked "Obsolete, but anyway." in the source). -/
def elasConfHaskey {α : Type} (el : ElasTag α) (key : List Pair) : Bool :=
  elasConfContains el key

/-- `ElasTag.append` / `ElasConf.append` (identical code): grow a list
under the exact canonical key, promoting a non-list previous value to
`[prev, val]`.  Returns the resulting list and the updated store. -/
def append {α : Type} (el : ElasTag α) (key : List Pair) (val : α) :
    List (Val α) × ElasTag α :=
  let config := confid key
  match dlookup config el with
  | some (Val.vlist l) =>
    (l ++ [Val.atom val], dinsert config (Val.vlist (l ++ [Val.atom val])) el)
  | some prev =>
    ([prev, Val.atom val], dinsert config (Val.vlist [prev, Val.atom val]) el)
  | none =>
    ([Val.atom val], dinsert config (Val.vlist [Val.atom val]) el)

/-- `ElasTag.add`: grow a set under the exact canonical key.  A previous
single value is promoted with `set([prev, val])`; a previous list cannot
be promoted — `set([prev, val])` raises TypeError in Python because a
list is unhashable — which the embedding renders as `Except.error`. -/
def add {α : Type} [DecidableEq α] (el : ElasTag α) (key : List Pair) (val : α) :
    Except Unit (List α × ElasTag α) :=
  let config := confid key
  match dlookup config el with
  | some (Val.vset s) =>
    let s' := if val ∈ s then s else s ++ [val]
    Except.ok (s', dinsert config (Val.vset s') el)
  | some (Val.atom a) =>
    let s' := if a = val then [a] else [a, val]
    Except.ok (s', dinsert config (Val.vset s') el)
  | some (Val.vlist _) => Except.error ()
  | none => Except.ok ([val], dinsert config (Val.vset [val]) el)

/-- `ElasTag.all(key)` with `as_set=False`: scan the entries whose key
includes the query; a list value contributes its elements (`out += val`),
any other value is appended as a single element (`out.append(val)` — a
set value is appended whole, not flattened). -/
def allList {α : Type} (el : ElasTag α) (key : List Pair) : List (Val α) :=
  let config := confid key
  el.foldl (fun out e =>
    if subsetB config e.1 then
      match e.2 with
      | Val.vlist l => out ++ l
      | v => out ++ [v]
    else out) []

/-- Python set insertion `out.add(v)`: no-op when present. -/
def sinsert {α : Type} [DecidableEq α] (out : List α) (v : α) : List α :=
  if v ∈ out then out else out ++ [v]

/-- Python set union `out |= s`: insert every element of `s`. -/
def sunion {α : Type} [DecidableEq α] (out : List α) (s : List α) : List α :=
  s.foldl sinsert out

/-- `set(val)` applied to a Python list of values: succeeds with the
atoms iff every element is hashable (lists and sets are unhashable). -/
def atomsOf {α : Type} : List (Val α) → Option (List α)
  | [] => some []
  | Val.atom a :: t => (atomsOf t).map (fun l => a :: l)
  | _ => none

/-- Worker for `ElasTag.all(key, as_set=True)`: accumulate the Python
set `out` over the entries in iteration order. -/
def allSetAux {α : Type} [DecidableEq α] (config : List Pair) :
    List (ConfigKey × Val α) → List α → Except Unit (List α)
  | [], out => Except.ok out
  | e :: rest, out =>
    if subsetB config e.1 then
      match e.2 with
      | Val.vset s => allSetAux config rest (sunion out s)
      | Val.vlist l =>
        match atomsOf l with
        | some la => allSetAux config rest (sunion out la)
        | none => Except.error ()
      | Val.atom a => allSetAux config rest (sinsert out a)
    else allSetAux config rest out

/-- `ElasTag.all(key, as_set=True)`. -/
def allSet {α : Type} [DecidableEq α] (el : ElasTag α) (key : List Pair) :
    Except Unit (List α) :=
  allSetAux (confid key) el []

/-- `ElasTag.bag(key)`: `self.all(key, as_set=True)`. -/
def bag {α : Type} [DecidableEq α] (el : ElasTag α) (key : List Pair) :
    Except Unit (List α) :=
  allSet el key

/-- The entries the Aggregator collects from: keys whose pair-set is a
superset of (or equal to) the query's. -/
def qualifying {α : Type} (el : ElasTag α) (key : List Pair) : ElasTag α :=
  el.filter (fun e => subsetB (confid key) e.1)

/-- What one stored value contributes to `all` in list mode: a list its
elements in order, anything else (a single value or a whole set) itself. -/
def flattenListMode {α : Type} : Val α → List (Val α)
  | Val.vlist l => l
  | v => [v]

/-- What one stored value contributes to `bag`: a single value itself, a
list its atom elements, a set its elements. -/
def flattenSetMode {α : Type} : Val α → List α
  | Val.atom a => [a]
  | Val.vlist l => l.filterMap (fun v => match v with | Val.atom a => some a | _ => none)
  | Val.vset s => s

/-- A canonical key: pairs strictly sorted by attribute name (the shape
every key produced by `__confid` from a dict has). -/
def Canonical (c : ConfigKey) : Prop :=
  c.Pairwise (fun p q => nameLt p.1 q.1 = true)

/-- Every key of the store is canonical — the invariant every store
reachable through the public operations satisfies. -/
def WFStore {α : Type} (el : ElasTag α) : Prop :=
  ∀ c ∈ el.map Prod.fst, Canonical c

instance (c : ConfigKey) : Decidable (Canonical c) := by
  unfold Canonical
  infer_instance

instance {α : Type} (el : ElasTag α) : Decidable (WFStore el) := by
  unfold WFStore
  infer_instance

/-! ### Concrete stores used to instantiate the theorems -/

/-- A chain of configurations A ⊂ B ⊂ C (as pair-sets), all stored. -/
def elChain : ElasTag String :=
  [([("lang", "en")], Val.atom "A"),
   ([("lang", "en"), ("sector", "construction")], Val.atom "B"),
   ([("company", "comp"), ("lang", "en"), ("sector", "construction")], Val.atom "C")]

/-- A query equal (as a pair-set) to the largest stored configuration of
`elChain`, given in non-canonical order. -/
def chainQuery : List Pair :=
  [("sector", "construction"), ("lang", "en"), ("company", "comp")]

/-- A store whose only entry is under the empty configuration. -/
def elEmptyKey : ElasTag String :=
  [([], Val.atom "default")]

/-- A store with a single one-pair configuration, used against a larger
query that matches it only elastically. -/
def elLang : ElasTag String :=
  [([("lang", "en")], Val.atom "en")]

/-- A query that elastically (but not exactly) matches `elLang`. -/
def retailQuery : List Pair :=
  [("lang", "en"), ("sector", "retail")]

/-- A store whose entry under {lang: es} already holds a Python list. -/
def elListPrior : ElasTag String :=
  [([("lang", "es")], Val.vlist [Val.atom "a"])]

/-- A store whose entry under {lang: es} holds Single('en-construction')
— the append-accumulation example of the spec. -/
def elSinglePrior : ElasTag String :=
  [([("lang", "en"), ("sector", "construction")], Val.atom "en-construction")]

/-- The key of `elSinglePrior`, written in non-canonical order. -/
def constructionKey : List Pair :=
  [("sector", "construction"), ("lang", "en")]

/-- A store with a set-valued entry and a single-valued entry, for the
aggregation claims. -/
def elAgg : ElasTag String :=
  [([("k", "1")], Val.vset ["a"]), ([("k", "2")], Val.atom "b")]

/-- A store whose only entry holds the Python set {'a'}. -/
def elSetEntry : ElasTag String :=
  [([("lang", "es")], Val.vset ["a"])]

/-- The store reached from `elSetEntry` by `append({'lang':'es'}, 'b')`:
its entry holds the Python list [set({'a'}), 'b'], whose set element is
unhashable. -/
def elBadBag : ElasTag String :=
  [([("lang", "es")], Val.vlist [Val.vset ["a"], Val.atom "b"])]

/-! ### Order lemmas for the name comparison -/

theorem charListLt_irrefl (l : List Char) : charListLt l l = false := by
  induction l with
  | nil => rfl
  | cons a t ih => simp [charListLt, ih]

theorem charListLt_trans {a b c : List Char} (h1 : charListLt a b = true)
    (h2 : charListLt b c = true) : charListLt a c = true := by
  induction a generalizing b c with
  | nil =>
    cases b with
    | nil => simp [charListLt] at h1
    | cons hb tb =>
      cases c with
      | nil => simp [charListLt] at h2
      | cons hc tc => rfl
  | cons ha ta ih =>
    cases b with
    | nil => simp [charListLt] at h1
    | cons hb tb =>
      cases c with
      | nil => simp [charListLt] at h2
      | cons hc tc =>
        simp only [charListLt, Bool.or_eq_true, Bool.and_eq_true, decide_eq_true_eq] at h1 h2 ⊢
        rcases h1 with h1 | ⟨h1e, h1t⟩
        · rcases h2 with h2 | ⟨h2e, h2t⟩
          · exact Or.inl (Nat.lt_trans h1 h2)
          · exact Or.inl (h2e ▸ h1)
        · rcases h2 with h2 | ⟨h2e, h2t⟩
          · exact Or.inl (h1e ▸ h2)
          · exact Or.inr ⟨h1e.trans h2e, ih h1t h2t⟩

theorem charListLt_eq_of_not {a b : List Char} (h1 : charListLt a b = false)
    (h2 : charListLt b a = false) : a = b := by
  induction a generalizing b with
  | nil =>
    cases b with
    | nil => rfl
    | cons hb tb => simp [charListLt] at h1
  | cons ha ta ih =>
    cases b with
    | nil => simp [charListLt] at h2
    | cons hb tb =>
      simp only [charListLt, Bool.or_eq_false_iff, Bool.and_eq_false_iff,
        decide_eq_false_iff_not, decide_eq_true_eq] at h1 h2
      have he : ha.toNat = hb.toNat :=
        Nat.le_antisymm (Nat.le_of_not_lt h2.1) (Nat.le_of_not_lt h1.1)
      have hchar : ha = hb := Char.ext (UInt32.ext he)
      rcases h1.2 with h1' | h1'
      · exact absurd he h1'
      · rcases h2.2 with h2' | h2'
        · exact absurd he.symm h2'
        · exact by rw [hchar, ih h1' h2']

theorem nameLt_irrefl (a : String) : nameLt a a = false :=
  charListLt_irrefl a.data

theorem nameLt_trans {a b c : String} (h1 : nameLt a b = true)
    (h2 : nameLt b c = true) : nameLt a c = true :=
  charListLt_trans h1 h2

theorem nameLt_eq_of_not {a b : String} (h1 : nameLt a b = false)
    (h2 : nameLt b a = false) : a = b := by
  have hd : a.data = b.data := charListLt_eq_of_not h1 h2
  cases a; cases b
  exact congrArg String.mk hd

theorem nameLt_asymm {a b : String} (h : nameLt a b = true) : nameLt b a = false := by
  cases hba : nameLt b a with
  | false => rfl
  | true => exact absurd (nameLt_trans h hba) (by simp [nameLt_irrefl])

instance : IsTotal String nameLe := by
  constructor
  intro a b
  cases hba : nameLt b a with
  | false => exact Or.inl hba
  | true => exact Or.inr (nameLt_asymm hba)

instance : IsTrans String nameLe := by
  constructor
  intro a b c h1 h2
  have h1' : nameLt b a = false := h1
  have h2' : nameLt c b = false := h2
  show nameLt c a = false
  cases hca : nameLt c a with
  | false => rfl
  | true =>
    exfalso
    cases hbc : nameLt b c with
    | true => exact absurd (nameLt_trans hbc hca) (by simp [h1'])
    | false =>
      have hbceq : b = c := nameLt_eq_of_not hbc h2'
      rw [hbceq] at h1'
      exact absurd hca (by simp [h1'])

/-! ### Canonical keys -/

/-- Strict name order lifted to pairs; `Canonical` is sortedness in it. -/
def pairLt (p q : Pair) : Prop :=
  nameLt p.1 q.1 = true

instance : IsAntisymm Pair pairLt :=
  ⟨fun _ _ h1 h2 => absurd (nameLt_trans h1 h2) (by simp [nameLt_irrefl])⟩

theorem Canonical.nodup {c : ConfigKey} (hc : Canonical c) : c.Nodup := by
  refine hc.imp ?_
  intro p q h he
  rw [he] at h
  exact absurd h (by simp [nameLt_irrefl])

theorem canonical_eq_of_perm {c d : ConfigKey} (hc : Canonical c) (hd : Canonical d)
    (h : c.Perm d) : c = d :=
  List.eq_of_perm_of_sorted (r := pairLt) h hc hd

theorem canonical_confid {kw : List Pair} (hkw : (kw.map Prod.fst).Nodup) :
    Canonical (confid kw) := by
  have hsorted : List.Sorted nameLe (List.insertionSort nameLe (kw.map Prod.fst)) :=
    List.sorted_insertionSort nameLe (kw.map Prod.fst)
  have hnodup : (List.insertionSort nameLe (kw.map Prod.fst)).Nodup :=
    ((List.perm_insertionSort nameLe (kw.map Prod.fst)).nodup_iff).mpr hkw
  have hstrict : (List.insertionSort nameLe (kw.map Prod.fst)).Pairwise
      (fun a b => nameLt a b = true) := by
    refine (List.Pairwise.and hsorted hnodup).imp ?_
    intro a b hab
    cases h : nameLt a b with
    | true => rfl
    | false => exact absurd (nameLt_eq_of_not h hab.1) hab.2
  refine List.pairwise_filterMap.mpr (hstrict.imp ?_)
  intro a b hab x hx y hy
  rcases Option.map_eq_some'.mp hx with ⟨u, _, hxu⟩
  rcases Option.map_eq_some'.mp hy with ⟨w, _, hyw⟩
  show nameLt x.1 y.1 = true
  rw [← hxu, ← hyw]
  exact hab

/-! ### Association-list lemmas -/

theorem dlookup_dinsert_self {κ β : Type} [DecidableEq κ] (k : κ) (v : β)
    (l : List (κ × β)) : dlookup k (dinsert k v l) = some v := by
  induction l with
  | nil => simp [dinsert, dlookup]
  | cons e t ih =>
    by_cases h : e.1 = k
    · simp [dinsert, dlookup, h]
    · simp [dinsert, dlookup, h, ih]

theorem dlookup_dinsert_ne {κ β : Type} [DecidableEq κ] {k k' : κ} (hne : k' ≠ k)
    (v : β) (l : List (κ × β)) : dlookup k' (dinsert k v l) = dlookup k' l := by
  have hk : ¬(k = k') := fun hk => hne hk.symm
  induction l with
  | nil => simp [dinsert, dlookup, hk]
  | cons e t ih =>
    obtain ⟨a, b⟩ := e
    by_cases h : a = k
    · have ha : ¬(a = k') := by rw [h]; exact hk
      simp [dinsert, dlookup, h, hk, ha]
    · by_cases h3 : a = k'
      · simp [dinsert, dlookup, h, h3, hne]
      · simp [dinsert, dlookup, h, h3, ih]

theorem mem_keys_dinsert_self {κ β : Type} [DecidableEq κ] (k : κ) (v : β)
    (l : List (κ × β)) : k ∈ (dinsert k v l).map Prod.fst := by
  induction l with
  | nil => simp [dinsert]
  | cons e t ih =>
    obtain ⟨a, b⟩ := e
    by_cases h : a = k
    · simp [dinsert, h]
    · simp only [dinsert, h, if_false, List.map_cons]
      exact List.mem_cons.mpr (Or.inr ih)

theorem mem_keys_dinsert {κ β : Type} [DecidableEq κ] {c k : κ} {v : β}
    {l : List (κ × β)} (h : c ∈ (dinsert k v l).map Prod.fst) :
    c = k ∨ c ∈ l.map Prod.fst := by
  induction l with
  | nil =>
    simp only [dinsert, List.map_cons, List.map_nil, List.mem_singleton] at h
    exact Or.inl h
  | cons e t ih =>
    obtain ⟨a, b⟩ := e
    by_cases he : a = k
    · simp only [dinsert, he, if_true, List.map_cons, List.mem_cons] at h
      rcases h with h | h
      · exact Or.inl h
      · exact Or.inr (List.mem_cons.mpr (Or.inr h))
    · simp only [dinsert, he, if_false, List.map_cons, List.mem_cons] at h
      rcases h with h | h
      · exact Or.inr (List.mem_cons.mpr (Or.inl h))
      · rcases ih h with h' | h'
        · exact Or.inl h'
        · exact Or.inr (List.mem_cons.mpr (Or.inr h'))

theorem dlookup_isSome_iff {κ β : Type} [DecidableEq κ] {k : κ} {l : List (κ × β)} :
    (dlookup k l).isSome = true ↔ k ∈ l.map Prod.fst := by
  induction l with
  | nil => simp [dlookup]
  | cons e t ih =>
    obtain ⟨a, b⟩ := e
    by_cases h : a = k
    · simp only [dlookup, if_pos h, Option.isSome_some, List.map_cons, List.mem_cons,
        true_iff]
      exact Or.inl h.symm
    · simp only [dlookup, if_neg h, List.map_cons, List.mem_cons, ih]
      constructor
      · exact Or.inr
      · rintro (rfl | hm)
        · exact absurd rfl h
        · exact hm

/-! ### The subset test -/

theorem subsetB_iff {a b : List Pair} : subsetB a b = true ↔ ∀ p ∈ a, p ∈ b := by
  simp [subsetB, List.all_eq_true]

theorem subsetB_refl (a : List Pair) : subsetB a a = true :=
  subsetB_iff.mpr (fun _ hp => hp)

/-! ### Resolver specification -/

theorem sortedKeys_mem {α : Type} {el : ElasTag α} {c : ConfigKey} :
    c ∈ sortedKeys el ↔ c ∈ el.map Prod.fst :=
  (List.perm_insertionSort lenDescOrder (el.map Prod.fst)).mem_iff

theorem sortedKeys_sorted {α : Type} (el : ElasTag α) :
    (sortedKeys el).Pairwise lenDescOrder :=
  List.sorted_insertionSort lenDescOrder (el.map Prod.fst)

theorem find?_length_maximal {L : List ConfigKey} {p : ConfigKey → Bool} {c : ConfigKey}
    (hs : L.Pairwise lenDescOrder) (h : L.find? p = some c) :
    ∀ c' ∈ L, p c' = true → c'.length ≤ c.length := by
  induction L with
  | nil => simp at h
  | cons a t ih =>
    rcases List.pairwise_cons.mp hs with ⟨ha, ht⟩
    intro c' hc' hpc'
    by_cases hpa : p a = true
    · rw [List.find?_cons_of_pos t hpa] at h
      have hac : a = c := by injection h
      rcases List.mem_cons.mp hc' with rfl | hc''
      · exact hac ▸ Nat.le_refl _
      · exact hac ▸ ha c' hc''
    · rw [List.find?_cons_of_neg t hpa] at h
      rcases List.mem_cons.mp hc' with rfl | hc''
      · exact absurd hpc' hpa
      · exact ih ht h c' hc'' hpc'

theorem translateKey_some_spec {α : Type} {el : ElasTag α} {key : List Pair}
    {c : ConfigKey} (h : translateKey el key = some c) :
    c ∈ el.map Prod.fst ∧ subsetB c (confid key) = true ∧
      ∀ c' ∈ el.map Prod.fst, subsetB c' (confid key) = true →
        c'.length ≤ c.length := by
  rw [translateKey] at h
  have hp := List.find?_some h
  refine ⟨sortedKeys_mem.mp (List.mem_of_find?_eq_some h), by simpa using hp, ?_⟩
  intro c' hc' hsub
  exact find?_length_maximal (sortedKeys_sorted el) h c' (sortedKeys_mem.mpr hc') hsub

theorem translateKey_eq_none {α : Type} {el : ElasTag α} {key : List Pair} :
    translateKey el key = none ↔
      ∀ c ∈ el.map Prod.fst, subsetB c (confid key) = false := by
  rw [translateKey, List.find?_eq_none]
  constructor
  · intro h c hc
    have := h c (sortedKeys_mem.mpr hc)
    simpa using this
  · intro h c hc
    simp [h c (sortedKeys_mem.mp hc)]

theorem translateKey_isSome_iff {α : Type} {el : ElasTag α} {key : List Pair} :
    (translateKey el key).isSome = true ↔
      ∃ c ∈ el.map Prod.fst, subsetB c (confid key) = true := by
  rw [translateKey, List.find?_isSome]
  constructor
  · rintro ⟨c, hc, hp⟩
    exact ⟨c, sortedKeys_mem.mp hc, hp⟩
  · rintro ⟨c, hc, hp⟩
    exact ⟨c, sortedKeys_mem.mpr hc, hp⟩

/-! ### C1: get returns the most specific stored configuration -/

/-- C1: whenever `get(query)` succeeds it returns the stored value of a
key whose pair-set is a subset of the query's pair-set and whose number
of pairs is maximal among all qualifying stored keys. -/
theorem getItem_most_specific {α : Type} (el : ElasTag α) (key : List Pair) (v : Val α)
    (h : getItem el key = Except.ok v) :
    ∃ c, c ∈ el.map Prod.fst ∧ subsetB c (confid key) = true ∧
      dlookup c el = some v ∧
      ∀ c' ∈ el.map Prod.fst, subsetB c' (confid key) = true →
        c'.length ≤ c.length := by
  unfold getItem at h
  split at h
  case h_2 => exact absurd h (by simp)
  case h_1 c ht =>
    split at h
    case h_2 => exact absurd h (by simp)
    case h_1 w hw =>
      have hwv : w = v := by injection h
      obtain ⟨hmem, hsub, hmax⟩ := translateKey_some_spec ht
      exact ⟨c, hmem, hsub, hwv ▸ hw, hmax⟩

/-- C1 witness: with A ⊂ B ⊂ C all stored, `get` on a query equal to C
returns C's value, which is stored under a qualifying key of maximal
size. -/
theorem getItem_most_specific_witness :
    getItem elChain chainQuery = Except.ok (Val.atom "C") ∧
    ∃ c, c ∈ elChain.map Prod.fst ∧ subsetB c (confid chainQuery) = true ∧
      dlookup c elChain = some (Val.atom "C") ∧
      ∀ c' ∈ elChain.map Prod.fst, subsetB c' (confid chainQuery) = true →
        c'.length ≤ c.length :=
  ⟨rfl, getItem_most_specific elChain chainQuery (Val.atom "C") rfl⟩

/-! ### C2: get fails with NotFound exactly on a miss -/

/-- C2: `get(query)` fails — with an error identifying the query — if
and only if no stored configuration's pair-set is a subset of the
query's pair-set.  (`getItem` is a pure function of the store, which is
how the embedding renders that `__getitem__` performs no mutation.) -/
theorem getItem_notfound_iff {α : Type} (el : ElasTag α) (key : List Pair) :
    getItem el key = Except.error key ↔
      ∀ c ∈ el.map Prod.fst, subsetB c (confid key) = false := by
  constructor
  · intro h
    cases ht : translateKey el key with
    | none => exact translateKey_eq_none.mp ht
    | some c =>
      exfalso
      obtain ⟨hmem, _, _⟩ := translateKey_some_spec ht
      obtain ⟨w, hw⟩ := Option.isSome_iff_exists.mp (dlookup_isSome_iff.mpr hmem)
      unfold getItem at h
      rw [ht] at h
      simp only at h
      rw [hw] at h
      exact absurd h (by simp)
  · intro h
    have ht : translateKey el key = none := translateKey_eq_none.mpr h
    unfold getItem
    rw [ht]

/-! ### C3: elastic containment -/

/-- C3: `ElasConf.__contains__` is true exactly when some stored
configuration's pair-set is included in the query's; but
`ElasTag.__contains__` returns the translated key itself, which the `in`
operator coerces by truthiness — so when the best (and only) match is
the empty configuration, `in` yields False even though the Resolver
found a match, `get` succeeds and `haskey` is true.  -/
theorem elastic_contains_truthiness_bug :
    (∀ (α : Type) (el : ElasTag α) (key : List Pair),
        elasConfContains el key = true ↔
          ∃ c ∈ el.map Prod.fst, subsetB c (confid key) = true) ∧
    elasTagContains elEmptyKey [] = false ∧
    translateKey elEmptyKey ([] : List Pair) = some [] ∧
    haskey elEmptyKey [] = true ∧
    getItem elEmptyKey [] = Except.ok (Val.atom "default") := by
  refine ⟨?_, rfl, rfl, rfl, rfl⟩
  intro α el key
  rw [elasConfContains]
  exact translateKey_isSome_iff

/-! ### C4: exact containment -/

/-- C4: `ElasTag.haskey` is true exactly when the canonicalized query is
itself a stored key; `ElasConf.haskey`, which delegates to the elastic
check, instead answers true for a query that only elastically matches a
smaller stored configuration. -/
theorem haskey_exact_iff_elasconf_elastic :
    (∀ (α : Type) (el : ElasTag α) (key : List Pair),
        haskey el key = true ↔ confid key ∈ el.map Prod.fst) ∧
    elasConfHaskey elLang retailQuery = true ∧
    haskey elLang retailQuery = false ∧
    confid retailQuery ∉ elLang.map Prod.fst := by
  refine ⟨?_, rfl, rfl, by decide⟩
  intro α el key
  rw [haskey]
  exact dlookup_isSome_iff

/-! ### C5: append -/

/-- C5: `append(key, value)` creates `List([value])` when no entry
exists, extends an existing list at the end, and replaces a non-list
entry with `List([prior, value])`; in every branch the returned list is
the value now stored under the canonical key and ends in `value`. -/
theorem append_spec {α : Type} (el : ElasTag α) (key : List Pair) (val : α) :
    (dlookup (confid key) el = none → (append el key val).1 = [Val.atom val]) ∧
    (∀ l, dlookup (confid key) el = some (Val.vlist l) →
        (append el key val).1 = l ++ [Val.atom val]) ∧
    (∀ prev, dlookup (confid key) el = some prev → (∀ l, prev ≠ Val.vlist l) →
        (append el key val).1 = [prev, Val.atom val]) ∧
    dlookup (confid key) (append el key val).2 = some (Val.vlist (append el key val).1) ∧
    (append el key val).1.getLast? = some (Val.atom val) := by
  cases hl : dlookup (confid key) el with
  | none =>
    refine ⟨?_, ?_, ?_, ?_, ?_⟩
    · intro _
      simp [append, hl]
    · intro l hlv
      cases hlv
    · intro prev hp _
      cases hp
    · simp only [append, hl]
      exact dlookup_dinsert_self _ _ _
    · simp [append, hl]
  | some prev =>
    cases prev with
    | vlist l =>
      refine ⟨?_, ?_, ?_, ?_, ?_⟩
      · intro hc
        cases hc
      · intro l' hl'
        have hll : l = l' := by
          have h1 : Val.vlist l = Val.vlist l' := by injection hl'
          injection h1
        simp [append, hl, hll]
      · intro prev' hp hnl
        exfalso
        have h1 : Val.vlist l = prev' := by injection hp
        exact hnl l h1.symm
      · simp only [append, hl]
        exact dlookup_dinsert_self _ _ _
      · simp [append, hl, List.getLast?_concat]
    | atom a =>
      refine ⟨?_, ?_, ?_, ?_, ?_⟩
      · intro hc
        cases hc
      · intro l' hl'
        simp at hl'
      · intro prev' hp _
        have h1 : Val.atom a = prev' := by injection hp
        simp [append, hl, ← h1]
      · simp only [append, hl]
        exact dlookup_dinsert_self _ _ _
      · simp [append, hl]
    | vset s =>
      refine ⟨?_, ?_, ?_, ?_, ?_⟩
      · intro hc
        cases hc
      · intro l' hl'
        simp at hl'
      · intro prev' hp _
        have h1 : Val.vset s = prev' := by injection hp
        simp [append, hl, ← h1]
      · simp only [append, hl]
        exact dlookup_dinsert_self _ _ _
      · simp [append, hl]

/-- C5 witness: the spec's append-accumulation example — appending to a
key holding Single('en-construction') promotes it to a two-element list
that is stored under the key and ends in the appended value. -/
theorem append_spec_witness :
    (append elSinglePrior constructionKey "x").1 =
      [Val.atom "en-construction", Val.atom "x"] ∧
    dlookup (confid constructionKey) (append elSinglePrior constructionKey "x").2 =
      some (Val.vlist ((append elSinglePrior constructionKey "x").1)) ∧
    (append elSinglePrior constructionKey "x").1.getLast? = some (Val.atom "x") :=
  ⟨(append_spec elSinglePrior constructionKey "x").2.2.1 (Val.atom "en-construction") rfl
      (fun _ hl => Val.noConfusion hl),
   (append_spec elSinglePrior constructionKey "x").2.2.2.1,
   (append_spec elSinglePrior constructionKey "x").2.2.2.2⟩

/-! ### C6: totality of add -/

/-- C6 counterexample: on an entry already holding a list, `add` fails —
Python evaluates `set([prev, val])` with the unhashable list `prev` and
raises TypeError — so add is not total over every prior entry shape. -/
theorem add_list_prior_raises :
    add elListPrior [("lang", "es")] "b" = Except.error () := rfl

/-- C6 amended: `add(key, value)` returns the resulting set — which is
then stored under the canonical key — whenever the prior entry shape is
absent, a single value, or a set; on a list-shaped prior value it fails
(the list cannot become a set element). -/
theorem add_total_amended {α : Type} [DecidableEq α] (el : ElasTag α) (key : List Pair)
    (val : α) :
    (dlookup (confid key) el = none →
        ∃ st, add el key val = Except.ok ([val], st) ∧
          dlookup (confid key) st = some (Val.vset [val])) ∧
    (∀ a, dlookup (confid key) el = some (Val.atom a) →
        ∃ st, add el key val = Except.ok (if a = val then [a] else [a, val], st) ∧
          dlookup (confid key) st = some (Val.vset (if a = val then [a] else [a, val]))) ∧
    (∀ s, dlookup (confid key) el = some (Val.vset s) →
        ∃ st, add el key val = Except.ok (if val ∈ s then s else s ++ [val], st) ∧
          dlookup (confid key) st = some (Val.vset (if val ∈ s then s else s ++ [val]))) ∧
    (∀ l, dlookup (confid key) el = some (Val.vlist l) →
        add el key val = Except.error ()) := by
  cases hl : dlookup (confid key) el with
  | none =>
    refine ⟨?_, ?_, ?_, ?_⟩
    · intro _
      refine ⟨dinsert (confid key) (Val.vset [val]) el, ?_, dlookup_dinsert_self _ _ _⟩
      simp [add, hl]
    · intro a ha
      cases ha
    · intro s hs
      cases hs
    · intro l hlv
      cases hlv
  | some prev =>
    cases prev with
    | atom a =>
      refine ⟨?_, ?_, ?_, ?_⟩
      · intro hc
        cases hc
      · intro a' ha'
        have haa : a = a' := by
          have h1 : Val.atom a = Val.atom a' := by injection ha'
          injection h1
        subst haa
        refine ⟨dinsert (confid key) (Val.vset (if a = val then [a] else [a, val])) el,
          ?_, dlookup_dinsert_self _ _ _⟩
        simp [add, hl]
      · intro s hs
        simp at hs
      · intro l hlv
        simp at hlv
    | vset s =>
      refine ⟨?_, ?_, ?_, ?_⟩
      · intro hc
        cases hc
      · intro a' ha'
        simp at ha'
      · intro s' hs'
        have hss : s = s' := by
          have h1 : Val.vset s = Val.vset s' := by injection hs'
          injection h1
        subst hss
        refine ⟨dinsert (confid key) (Val.vset (if val ∈ s then s else s ++ [val])) el,
          ?_, dlookup_dinsert_self _ _ _⟩
        simp [add, hl]
      · intro l hlv
        simp at hlv
    | vlist l =>
      refine ⟨?_, ?_, ?_, ?_⟩
      · intro hc
        cases hc
      · intro a' ha'
        simp at ha'
      · intro s' hs'
        simp at hs'
      · intro l' _
        simp [add, hl]

/-- C6 witness for the amended claim: adding to an absent entry yields
the singleton set, stored under the key. -/
theorem add_total_amended_witness :
    ∃ st, add ([] : ElasTag String) [("lang", "es")] "x" = Except.ok (["x"], st) ∧
      dlookup (confid [("lang", "es")]) st = some (Val.vset ["x"]) :=
  (add_total_amended ([] : ElasTag String) [("lang", "es")] "x").1 rfl

/-! ### C7: add idempotence then extension -/

/-- C7: starting from no entry under k, `add(k, v)` twice leaves the
entry holding the one-element set {v} (the second add is a no-op on the
set), and a subsequent `add(k, w)` with w ≠ v leaves it holding {v, w}. -/
theorem add_accumulation {α : Type} [DecidableEq α] (el : ElasTag α) (k : List Pair)
    (v w : α) (h0 : dlookup (confid k) el = none) (hvw : v ≠ w) :
    ∃ s1 s2 s3 : ElasTag α,
      add el k v = Except.ok ([v], s1) ∧
      add s1 k v = Except.ok ([v], s2) ∧
      dlookup (confid k) s2 = some (Val.vset [v]) ∧
      add s2 k w = Except.ok ([v, w], s3) ∧
      dlookup (confid k) s3 = some (Val.vset [v, w]) := by
  refine ⟨dinsert (confid k) (Val.vset [v]) el,
    dinsert (confid k) (Val.vset [v]) (dinsert (confid k) (Val.vset [v]) el),
    dinsert (confid k) (Val.vset [v, w])
      (dinsert (confid k) (Val.vset [v]) (dinsert (confid k) (Val.vset [v]) el)),
    ?_, ?_, dlookup_dinsert_self _ _ _, ?_, dlookup_dinsert_self _ _ _⟩
  · simp [add, h0]
  · simp [add, dlookup_dinsert_self]
  · have hwv : ¬(w = v) := fun he => hvw he.symm
    simp [add, dlookup_dinsert_self, hwv]

/-- C7 witness: the spec's add-idempotence example with 'es1' and 'es2'
under {lang: es}, starting from the empty store. -/
theorem add_accumulation_witness :
    ∃ s1 s2 s3 : ElasTag String,
      add ([] : ElasTag String) [("lang", "es")] "es1" = Except.ok (["es1"], s1) ∧
      add s1 [("lang", "es")] "es1" = Except.ok (["es1"], s2) ∧
      dlookup (confid [("lang", "es")]) s2 = some (Val.vset ["es1"]) ∧
      add s2 [("lang", "es")] "es2" = Except.ok (["es1", "es2"], s3) ∧
      dlookup (confid [("lang", "es")]) s3 = some (Val.vset ["es1", "es2"]) :=
  add_accumulation [] [("lang", "es")] "es1" "es2" rfl (by decide)

/-! ### C10: writes touch only their own canonical key -/

/-- C10: `set`, `append` and `add` modify at most the entry under the
canonicalization of their key: lookup under every other canonical key is
unchanged (in particular no entry elsewhere is created or removed). -/
theorem frame_preservation {α : Type} [DecidableEq α] (el : ElasTag α) (key : List Pair)
    (k' : ConfigKey) (val : α) (hne : k' ≠ confid key) :
    dlookup k' (setItem el key val) = dlookup k' el ∧
    dlookup k' (append el key val).2 = dlookup k' el ∧
    (∀ p, add el key val = Except.ok p → dlookup k' p.2 = dlookup k' el) := by
  refine ⟨dlookup_dinsert_ne hne _ _, ?_, ?_⟩
  · cases hl : dlookup (confid key) el with
    | none =>
      simp only [append, hl]
      exact dlookup_dinsert_ne hne _ _
    | some prev =>
      cases prev with
      | atom a =>
        simp only [append, hl]
        exact dlookup_dinsert_ne hne _ _
      | vlist l =>
        simp only [append, hl]
        exact dlookup_dinsert_ne hne _ _
      | vset s =>
        simp only [append, hl]
        exact dlookup_dinsert_ne hne _ _
  · intro p hp
    cases hl : dlookup (confid key) el with
    | none =>
      simp only [add, hl] at hp
      injection hp with h
      rw [← h]
      exact dlookup_dinsert_ne hne _ _
    | some prev =>
      cases prev with
      | atom a =>
        simp only [add, hl] at hp
        injection hp with h
        rw [← h]
        exact dlookup_dinsert_ne hne _ _
      | vset s =>
        simp only [add, hl] at hp
        injection hp with h
        rw [← h]
        exact dlookup_dinsert_ne hne _ _
      | vlist l =>
        simp only [add, hl] at hp
        cases hp

/-- C10 witness: writing under {lang: es} leaves the entry stored under
{lang: en} untouched for all three mutators. -/
theorem frame_preservation_witness :
    dlookup [("lang", "en")] (setItem elChain [("lang", "es")] "v") =
      dlookup [("lang", "en")] elChain ∧
    dlookup [("lang", "en")] (append elChain [("lang", "es")] "v").2 =
      dlookup [("lang", "en")] elChain ∧
    (∀ p, add elChain [("lang", "es")] "v" = Except.ok p →
      dlookup [("lang", "en")] p.2 = dlookup [("lang", "en")] elChain) :=
  frame_preservation elChain [("lang", "es")] [("lang", "en")] "v" (by decide)

/-! ### C9: set then get round-trips -/

theorem wfStore_dinsert {α : Type} {el : ElasTag α} (hwf : WFStore el) {k : ConfigKey}
    (hk : Canonical k) (v : Val α) : WFStore (dinsert k v el) := by
  intro c hc
  rcases mem_keys_dinsert hc with rfl | hc'
  · exact hk
  · exact hwf c hc'

theorem canonical_subset_length_eq {c k : ConfigKey} (hc : Canonical c) (hk : Canonical k)
    (hsub : subsetB c k = true) (hlen : k.length ≤ c.length) : c = k := by
  have hsubs : c ⊆ k := fun {p} hp => subsetB_iff.mp hsub p hp
  have hsp := (Canonical.nodup hc).subperm hsubs
  exact canonical_eq_of_perm hc hk (hsp.perm_of_length_le hlen)

/-- C9: on a store whose keys are all canonical, `set(K, V)` followed by
`get(K)` returns V: the canonicalized K qualifies for its own query, any
qualifying key is no longer than it, and a canonical qualifying key of
the same length is K itself. -/
theorem set_get_roundtrip {α : Type} (el : ElasTag α) (K : List Pair) (V : α)
    (hwf : WFStore el) (hK : (K.map Prod.fst).Nodup) :
    getItem (setItem el K V) K = Except.ok (Val.atom V) := by
  have hcanK : Canonical (confid K) := canonical_confid hK
  have hwf' : WFStore (setItem el K V) := wfStore_dinsert hwf hcanK _
  have hmem : confid K ∈ (setItem el K V).map Prod.fst := mem_keys_dinsert_self _ _ _
  have hsome : (translateKey (setItem el K V) K).isSome = true :=
    translateKey_isSome_iff.mpr ⟨confid K, hmem, subsetB_refl _⟩
  obtain ⟨c0, hc0⟩ := Option.isSome_iff_exists.mp hsome
  obtain ⟨hc0mem, hc0sub, hc0max⟩ := translateKey_some_spec hc0
  have hc0eq : c0 = confid K :=
    canonical_subset_length_eq (hwf' c0 hc0mem) hcanK hc0sub
      (hc0max (confid K) hmem (subsetB_refl _))
  rw [hc0eq] at hc0
  unfold getItem
  rw [hc0]
  dsimp only
  simp only [setItem]
  rw [dlookup_dinsert_self]

/-- C9 witness: setting a fresh configuration in the chain store and
reading it back returns the value just stored. -/
theorem set_get_roundtrip_witness :
    getItem (setItem elChain [("lang", "fr")] "fr") [("lang", "fr")] =
      Except.ok (Val.atom "fr") :=
  set_get_roundtrip elChain [("lang", "fr")] "fr" (by decide) (by decide)

/-! ### C8: aggregation -/

theorem mem_sinsert {α : Type} [DecidableEq α] {x v : α} {out : List α} :
    x ∈ sinsert out v ↔ x ∈ out ∨ x = v := by
  unfold sinsert
  by_cases h : v ∈ out
  · rw [if_pos h]
    constructor
    · exact Or.inl
    · rintro (hx | rfl)
      · exact hx
      · exact h
  · rw [if_neg h]
    simp

theorem nodup_sinsert {α : Type} [DecidableEq α] (v : α) {out : List α}
    (h : out.Nodup) : (sinsert out v).Nodup := by
  unfold sinsert
  by_cases hv : v ∈ out
  · rwa [if_pos hv]
  · rw [if_neg hv]
    simp [List.nodup_append, h, hv]

theorem mem_sunion {α : Type} [DecidableEq α] {x : α} {out s : List α} :
    x ∈ sunion out s ↔ x ∈ out ∨ x ∈ s := by
  induction s generalizing out with
  | nil => simp [sunion]
  | cons a t ih =>
    show x ∈ sunion (sinsert out a) t ↔ _
    rw [ih, mem_sinsert]
    simp [or_assoc]

theorem nodup_sunion {α : Type} [DecidableEq α] (s : List α) {out : List α}
    (h : out.Nodup) : (sunion out s).Nodup := by
  induction s generalizing out with
  | nil => exact h
  | cons a t ih => exact ih (nodup_sinsert a h)

theorem atomsOf_eq_some {α : Type} {l : List (Val α)} {la : List α}
    (h : atomsOf l = some la) :
    l.filterMap (fun v => match v with | Val.atom a => some a | _ => none) = la := by
  induction l generalizing la with
  | nil =>
    simp only [atomsOf, Option.some_inj] at h
    simp [← h]
  | cons v t ih =>
    cases v with
    | atom a =>
      simp only [atomsOf] at h
      rcases Option.map_eq_some'.mp h with ⟨lt, hlt, hla⟩
      simp only [List.filterMap_cons, ih hlt, ← hla]
    | vlist l2 => simp [atomsOf] at h
    | vset s2 => simp [atomsOf] at h

theorem allSetAux_spec {α : Type} [DecidableEq α] (config : List Pair)
    (l : List (ConfigKey × Val α)) :
    ∀ out final, out.Nodup → allSetAux config l out = Except.ok final →
      final.Nodup ∧
        ∀ x, x ∈ final ↔ x ∈ out ∨
          x ∈ (l.filter (fun e => subsetB config e.1)).flatMap
            (fun e => flattenSetMode e.2) := by
  induction l with
  | nil =>
    intro out final hnd h
    simp only [allSetAux] at h
    injection h with h
    subst h
    simp [hnd]
  | cons e t ih =>
    intro out final hnd h
    obtain ⟨ck, v⟩ := e
    by_cases hq : subsetB config ck = true
    · cases v with
      | vset s =>
        simp only [allSetAux, hq, if_true] at h
        obtain ⟨hnd', hmem⟩ := ih (sunion out s) final (nodup_sunion s hnd) h
        refine ⟨hnd', fun x => ?_⟩
        rw [hmem x, mem_sunion]
        simp [List.filter_cons, hq, flattenSetMode, or_assoc]
      | atom a =>
        simp only [allSetAux, hq, if_true] at h
        obtain ⟨hnd', hmem⟩ := ih (sinsert out a) final (nodup_sinsert a hnd) h
        refine ⟨hnd', fun x => ?_⟩
        rw [hmem x, mem_sinsert]
        simp [List.filter_cons, hq, flattenSetMode, or_assoc]
      | vlist lv =>
        cases ha : atomsOf lv with
        | none =>
          simp only [allSetAux, hq, if_true, ha] at h
          cases h
        | some la =>
          simp only [allSetAux, hq, if_true, ha] at h
          obtain ⟨hnd', hmem⟩ := ih (sunion out la) final (nodup_sunion la hnd) h
          refine ⟨hnd', fun x => ?_⟩
          rw [hmem x, mem_sunion]
          simp [List.filter_cons, hq, flattenSetMode, atomsOf_eq_some ha, or_assoc]
    · simp only [allSetAux, hq, if_false] at h
      obtain ⟨hnd', hmem⟩ := ih out final hnd h
      refine ⟨hnd', fun x => ?_⟩
      rw [hmem x]
      simp [List.filter_cons, hq]

theorem allList_eq {α : Type} (el : ElasTag α) (key : List Pair) :
    allList el key = (qualifying el key).flatMap (fun e => flattenListMode e.2) := by
  have hgen : ∀ (l : List (ConfigKey × Val α)) (out : List (Val α)),
      (l.foldl (fun out e =>
        if subsetB (confid key) e.1 then
          match e.2 with
          | Val.vlist li => out ++ li
          | v => out ++ [v]
        else out) out)
      = out ++ (l.filter (fun e => subsetB (confid key) e.1)).flatMap
          (fun e => flattenListMode e.2) := by
    intro l
    induction l with
    | nil => intro out; simp
    | cons e t ih =>
      intro out
      obtain ⟨ck, v⟩ := e
      rw [List.foldl_cons, ih]
      by_cases hq : subsetB (confid key) ck = true
      · have hstep : (if subsetB (confid key) (ck, v).1 then
            match (ck, v).2 with
            | Val.vlist li => out ++ li
            | v => out ++ [v]
          else out) = out ++ flattenListMode v := by
          show (if subsetB (confid key) ck then _ else _) = _
          rw [if_pos hq]
          cases v <;> rfl
        rw [hstep]
        simp [List.filter_cons, hq, List.append_assoc]
      · have hstep : (if subsetB (confid key) (ck, v).1 then
            match (ck, v).2 with
            | Val.vlist li => out ++ li
            | v => out ++ [v]
          else out) = out := by
          show (if subsetB (confid key) ck then _ else _) = _
          rw [if_neg hq]
        rw [hstep]
        simp [List.filter_cons, hq]
  show (el.foldl _ []) = _
  rw [hgen el []]
  simp [qualifying]

/-- C8 counterexample: in list mode the Aggregator does not flatten a
set-valued entry — `all` on a store holding the set {'a'} returns the
set object as its single element, not the element 'a' the claim
prescribes.  Moreover `bag` is not always the deduplicated union the
claim describes: from that same store, which `add` reaches from an
empty store, `append` puts the set itself inside a list, and `bag`
then fails — Python's `set(val)` raises TypeError on the unhashable
set element — instead of returning any collection of values. -/
theorem all_set_entry_unflattened :
    allList elSetEntry [] = [Val.vset ["a"]] ∧
    allList elSetEntry [] ≠ [Val.atom "a"] ∧
    add ([] : ElasTag String) [("lang", "es")] "a" = Except.ok (["a"], elSetEntry) ∧
    append elSetEntry [("lang", "es")] "b" =
      ([Val.vset ["a"], Val.atom "b"], elBadBag) ∧
    bag elBadBag [] = Except.error () := by
  refine ⟨rfl, fun h => ?_, rfl, rfl, rfl⟩
  have h2 : ([Val.vset ["a"]] : List (Val String)) = [Val.atom "a"] := h
  have h1 : (Val.vset ["a"] : Val String) = Val.atom "a" := by injection h2
  exact Val.noConfusion h1

/-- C8 amended: `all(query)` concatenates, over the entries whose key is
a superset of (or equal to) the query, the elements of a list value in
order, a set value as a single unflattened element, and a single value
itself; `bag(query)`, when it succeeds, is duplicate-free and holds
exactly the flattened values (list elements, set elements, single
values) of the qualifying entries. -/
theorem all_bag_amended {α : Type} [DecidableEq α] (el : ElasTag α) (key : List Pair) :
    allList el key = (qualifying el key).flatMap (fun e => flattenListMode e.2) ∧
    (∀ out, allSet el key = Except.ok out →
        out.Nodup ∧
          ∀ x, x ∈ out ↔
            x ∈ (qualifying el key).flatMap (fun e => flattenSetMode e.2)) := by
  refine ⟨allList_eq el key, ?_⟩
  intro out hok
  obtain ⟨hnd, hmem⟩ := allSetAux_spec (confid key) el [] out List.nodup_nil hok
  refine ⟨hnd, fun x => ?_⟩
  rw [hmem x]
  simp [qualifying]

/-- C8 witness: on a store with a set entry and a single entry, `all` of
the empty query follows the amended description and `bag` returns the
duplicate-free flattened values. -/
theorem all_bag_amended_witness :
    allList elAgg [] = (qualifying elAgg []).flatMap (fun e => flattenListMode e.2) ∧
    ((["a", "b"] : List String).Nodup ∧
      ∀ x, x ∈ (["a", "b"] : List String) ↔
        x ∈ (qualifying elAgg []).flatMap (fun e => flattenSetMode e.2)) :=
  ⟨(all_bag_amended elAgg []).1, (all_bag_amended elAgg []).2 ["a", "b"] rfl⟩
